import Mathlib

/-!
Verification development for the mnoga internationalization library.

The definitions below are a shallow embedding of the TypeScript sources:
  * `src/utils/LanguageTag.ts` (BCP-47 tag parsing and canonicalization),
  * `src/utils/pluralization.ts` (plural-category rules),
  * `src/utils/i18n.ts` (`lookupLocale`, `getFallbackPattern`,
    `getCanonicalLocale(s)`, `lookupPhrase`, `mergePhrases`).

Modelling conventions:
  * JavaScript strings are Lean `String`s / `List Char`;
  * a function that `throw`s is modelled with `Option` (`none` = exception);
  * JavaScript objects used as string-keyed maps are association lists with
    unique keys; assignment replaces an existing key in place or appends;
  * JavaScript numbers are modelled as `Int` (every count exercised by the
    library's tests is an integer; `%` is `Int.tmod`, which has JavaScript's
    remainder semantics);
  * the regular expressions of the source are implemented as explicit
    backtracking matchers following the JavaScript engine's strategy
    (leftmost alternative first, greedy quantifiers, backtracking).
-/

namespace Mnoga

/-! ### Character classes and case conversion

`Char.toLower`/`Char.toUpper` in Lean core act exactly like JavaScript's
`toLowerCase`/`toUpperCase` on the ASCII range, which is the only range the
captured subtags can contain. -/

def isAsciiLetter (c : Char) : Bool :=
  decide (65 ≤ c.toNat ∧ c.toNat ≤ 90) || decide (97 ≤ c.toNat ∧ c.toNat ≤ 122)

def isAsciiDigit (c : Char) : Bool :=
  decide (48 ≤ c.toNat ∧ c.toNat ≤ 57)

/-! ### The `IETF_LANGUAGE` regular expression

Source (`LanguageTag.ts`):
```
const IETF_LANG_TAG   = /[A-Za-z]{2,3}(?:(?:-[A-Za-z]{3}){1,3})?|[[A-Za-z]{4,8}]/;
const IETF_SCRIPT_TAG = /[A-Za-z]{4}/;
const IETF_REGION_TAG = /[A-Za-z]{2}|[0-9]{3}/;
const IETF_LANGUAGE   = new RegExp(
  '^' + `(${IETF_LANG_TAG.source})` +
  `(?:-(${IETF_SCRIPT_TAG.source}))?` + `(?:-(${IETF_REGION_TAG.source}))?` +
  '(?:-|$)');
```
Note that the second language alternative is written `[[A-Za-z]{4,8}]` in the
source: a character class `[[A-Za-z]` (letters or `[`) repeated 4 to 8 times
followed by a literal `]` — not `[A-Za-z]{4,8}`.

The matcher below enumerates the engine's backtracking choices in priority
order: language alternative 1 before 2, greedy counted repetition from the
maximum down, script present before absent, region letters before digits
before absent, and the final `(?:-|$)`. -/

/-- Take exactly `n` characters satisfying `p`; return them and the rest. -/
def takeExact (p : Char → Bool) : Nat → List Char → Option (List Char × List Char)
  | 0, l => some ([], l)
  | _ + 1, [] => none
  | n + 1, c :: l =>
    if p c then (takeExact p n l).map (fun x => (c :: x.1, x.2)) else none

/-- Exactly `n` repetitions of `-` followed by three letters
(the `(?:-[A-Za-z]{3})` extended-language group). -/
def extReps : Nat → List Char → Option (List Char × List Char)
  | 0, l => some ([], l)
  | _ + 1, [] => none
  | n + 1, c :: l =>
    if c = '-' then
      match takeExact isAsciiLetter 3 l with
      | some (a, r) => (extReps n r).map (fun x => (c :: a ++ x.1, x.2))
      | none => none
    else none

/-- The candidates of the first language alternative that take `k` initial
letters (greedy `{2,3}` tries `k = 3` before `k = 2`), each followed by
`j = 3, 2, 1, 0` extended-language repetitions (greedy `(?:...{1,3})?`). -/
def alt1Branch (k : Nat) (s : List Char) : List (List Char × List Char) :=
  match takeExact isAsciiLetter k s with
  | none => []
  | some (a, r) =>
    [3, 2, 1, 0].filterMap fun j =>
      (extReps j r).map fun x => (a ++ x.1, x.2)

/-- Candidates for the first language alternative
`[A-Za-z]{2,3}(?:(?:-[A-Za-z]{3}){1,3})?`, in backtracking order. -/
def alt1Cands (s : List Char) : List (List Char × List Char) :=
  alt1Branch 3 s ++ alt1Branch 2 s

/-- The candidate of the second language alternative taking `k` characters
of the class `[[A-Za-z]` followed by a literal `]`. -/
def alt2Branch (k : Nat) (s : List Char) : List (List Char × List Char) :=
  match takeExact (fun c => isAsciiLetter c || c = '[') k s with
  | none => []
  | some (a, r) =>
    match r with
    | [] => []
    | c :: r2 => if c = ']' then [(a ++ [c], r2)] else []

/-- Candidates for the second language alternative `[[A-Za-z]{4,8}]`
(as written in the source: 4–8 characters from the class `[[A-Za-z]`,
then a literal `]`), in backtracking order (greedy from 8 down to 4). -/
def alt2Cands (s : List Char) : List (List Char × List Char) :=
  alt2Branch 8 s ++ alt2Branch 7 s ++ alt2Branch 6 s ++ alt2Branch 5 s ++ alt2Branch 4 s

def langCands (s : List Char) : List (List Char × List Char) :=
  alt1Cands s ++ alt2Cands s

/-- `(?:-([A-Za-z]{4}))?`: script present (after a hyphen) before absent. -/
def scriptOpts (l : List Char) : List (Option (List Char) × List Char) :=
  (match l with
   | [] => []
   | c :: r =>
     if c = '-' then
       match takeExact isAsciiLetter 4 r with
       | some (a, r2) => [(some a, r2)]
       | none => []
     else []) ++ [(none, l)]

/-- `(?:-([A-Za-z]{2}|[0-9]{3}))?`: two letters, else three digits, else absent. -/
def regionOpts (l : List Char) : List (Option (List Char) × List Char) :=
  (match l with
   | [] => []
   | c :: r =>
     if c = '-' then
       (match takeExact isAsciiLetter 2 r with
        | some (a, r2) => [(some a, r2)]
        | none => []) ++
       (match takeExact isAsciiDigit 3 r with
        | some (a, r2) => [(some a, r2)]
        | none => [])
     else []) ++ [(none, l)]

/-- The trailing `(?:-|$)`: the rest starts with a hyphen or is empty. -/
def tailOk (l : List Char) : Bool :=
  match l with
  | [] => true
  | c :: _ => c = '-'

def regionStage (l : List Char) : Option (Option (List Char)) :=
  (regionOpts l).findSome? fun x => if tailOk x.2 then some x.1 else none

def scriptStage (l : List Char) : Option (Option (List Char) × Option (List Char)) :=
  (scriptOpts l).findSome? fun x => (regionStage x.2).map fun rg => (x.1, rg)

/-- `IETF_LANGUAGE.exec`: the raw captures (language, script, region) of the
first (highest-priority) match, or `none` when the regex does not match. -/
def parseCore (s : List Char) : Option (List Char × Option (List Char) × Option (List Char)) :=
  (langCands s).findSome? fun x => (scriptStage x.2).map fun y => (x.1, y.1, y.2)

/-! ### The `LanguageTag` class -/

structure LanguageTag where
  language : String
  script : Option String
  region : Option String
deriving DecidableEq, Repr

/-- `matches[2].toLowerCase().replace(/^[a-z]/, (c) => c.toUpperCase())`:
the argument is already lower-cased, then the first character is upper-cased
when it is a lower-case letter. -/
def titleCase : List Char → List Char
  | [] => []
  | c :: r => if 97 ≤ c.toNat ∧ c.toNat ≤ 122 then c.toUpper :: r else c :: r

/-- The `LanguageTag` constructor: `none` models the thrown
`"... is not a valid language tag."` error. -/
def LanguageTag.parse (s : String) : Option LanguageTag :=
  match parseCore s.data with
  | none => none
  | some (lang, sc, rg) =>
    some { language := String.mk (lang.map Char.toLower)
           script := sc.map fun a => String.mk (titleCase (a.map Char.toLower))
           region := rg.map fun a => String.mk (a.map Char.toUpper) }

/-- `toString()`: the normalized string `language[-script][-region]`
precomputed by the constructor. -/
def LanguageTag.str (t : LanguageTag) : String :=
  t.language
    ++ (match t.script with | some sc => "-" ++ sc | none => "")
    ++ (match t.region with | some rg => "-" ++ rg | none => "")

def LanguageTag.hasScript (t : LanguageTag) : Bool := t.script.isSome

def LanguageTag.hasRegion (t : LanguageTag) : Bool := t.region.isSome

/-! ### Canonicalization and fallback chains (`i18n.ts`) -/

/-- `getCanonicalLocale`: `LanguageTag.toString(locale)`. -/
def getCanonicalLocale (locale : String) : Option String :=
  (LanguageTag.parse locale).map LanguageTag.str

/-- `getCanonicalLocales` on an array argument (a single-string argument is
the one-element list). -/
def getCanonicalLocales (locales : List String) : Option (List String) :=
  locales.mapM getCanonicalLocale

/-- `getFallbackPattern`: `[toString]`, then `language-script` when both
script and region are present, then the bare language when it differs. -/
def getFallbackPattern (locale : String) : Option (List String) := do
  let t ← LanguageTag.parse locale
  pure ([t.str]
    ++ (if t.hasRegion && t.hasScript then [t.language ++ "-" ++ t.script.getD ""] else [])
    ++ (if t.language = t.str then [] else [t.language]))

/-! ### `lookupLocale` -/

def isPrefixChars : List Char → List Char → Bool
  | [], _ => true
  | _ :: _, [] => false
  | a :: as, b :: bs => a = b && isPrefixChars as bs

def containsSubChars (pat : List Char) : List Char → Bool
  | [] => isPrefixChars pat []
  | c :: r => isPrefixChars pat (c :: r) || containsSubChars pat r

/-- Literal substring containment. This is *not* the program's drop test —
`String.prototype.search` compiles its argument as a regular expression
(see `searchMatches`) — but the test the spec describes; the two coincide
for patterns without `[`/`]`. -/
def containsSubStr (pat next : String) : Bool :=
  containsSubChars pat.data next.data

/-! #### `next.search(s)`

`String.prototype.search(s)` runs `new RegExp(s)` against `next`. The
patterns reaching it inside `lookupLocale` are fallback strings built from
parsed-tag captures: ASCII letters, digits, `-`, and — through the
`[[A-Za-z]{4,8}]` alternative — `[` and `]`, where every `[` precedes the
capture's final `]`. Over this alphabet the full JavaScript semantics is: a
sequence of single-character atoms, each a literal or a `[...]` character
class (empty class matches nothing; `-` inside a class forms a range;
`]` with no open class is a literal, per Annex B); an unterminated `[` is a
`SyntaxError`, modelled as `none`. There are no quantifiers, escapes,
anchors or alternations to consider. -/

inductive PatTok where
  | lit (c : Char)
  | cls (body : List Char)
deriving Repr

/-- Scan a class body up to the closing `]`; `none` when it never closes. -/
def classScan : List Char → Option (List Char × List Char)
  | [] => none
  | c :: r =>
    if c = ']' then some ([], r)
    else (classScan r).map fun x => (c :: x.1, x.2)

/-- Tokenize a pattern into literals and classes. The fuel (the pattern
length at the top-level call) only bounds the recursion; it cannot run out
because every step consumes at least one character. -/
def patTokensGo : Nat → List Char → Option (List PatTok)
  | _, [] => some []
  | 0, _ => none
  | fuel + 1, c :: rest =>
    if c = '[' then
      match classScan rest with
      | none => none
      | some (body, rest2) => (patTokensGo fuel rest2).map (PatTok.cls body :: ·)
    else
      (patTokensGo fuel rest).map (PatTok.lit c :: ·)

def patTokens (l : List Char) : Option (List PatTok) :=
  patTokensGo l.length l

/-- One character against a class body: ranges `a-b`, else literal members. -/
def clsMatch : List Char → Char → Bool
  | [], _ => false
  | a :: '-' :: b :: rest, c => (a ≤ c && c ≤ b) || clsMatch rest c
  | a :: rest, c => a = c || clsMatch rest c

/-- Match the token sequence starting exactly at this position. -/
def toksMatchAt : List PatTok → List Char → Bool
  | [], _ => true
  | _ :: _, [] => false
  | .lit a :: ts, c :: r => a = c && toksMatchAt ts r
  | .cls body :: ts, c :: r => clsMatch body c && toksMatchAt ts r

/-- Match the token sequence at any position (the `search` scan). -/
def toksSearch (ts : List PatTok) : List Char → Bool
  | [] => toksMatchAt ts []
  | c :: r => toksMatchAt ts (c :: r) || toksSearch ts r

/-- `next.search(pat) !== -1`; `none` models the `SyntaxError` thrown by
`new RegExp` on an unterminated class. -/
def searchMatches (pat next : String) : Option Bool :=
  (patTokens pat.data).map fun ts => toksSearch ts next.data

/-- First-match lookup in a string-keyed JavaScript object (keys are unique). -/
def objGet : List (String × String) → String → Option String
  | [], _ => none
  | (k, v) :: r, key => if k = key then some v else objGet r key

/-- JavaScript object assignment: overwrite the existing key in place,
or append a new one. -/
def objSet : List (String × String) → String → String → List (String × String)
  | [], k, v => [(k, v)]
  | (k0, v0) :: r, k, v => if k0 = k then (k, v) :: r else (k0, v0) :: objSet r k v

/-- Normalization of the alias map: each key and value is canonicalized
(`getCanonicalLocale` throws on invalid tags) and assigned into a fresh
object in iteration order. -/
def canonAliases (aliases : List (String × String)) : Option (List (String × String)) :=
  aliases.foldlM
    (fun acc kv => do
      let k ← getCanonicalLocale kv.1
      let v ← getCanonicalLocale kv.2
      pure (objSet acc k v))
    []

/-- `fb.filter((s) => !baseSet[s] && next.search(s) === -1)`: left to right,
the membership test short-circuits before `search` is called, and a
`SyntaxError` from `search` propagates (`none`). -/
def filterFallbacks (all : List String) (next : String) : List String → Option (List String)
  | [] => some []
  | s :: r =>
    if all.contains s then
      filterFallbacks all next r
    else do
      let m ← searchMatches s next
      let tl ← filterFallbacks all next r
      pure (if m then tl else s :: tl)

/-- The `possibleLocales` loop of `lookupLocale`: push the current locale,
then its fallbacks filtered by
`(s) => !baseSet[s] && next.search(s) === -1` where `next` is the following
preferred locale (or `''` for the last). -/
def possibleGo (all : List String) : List String → Option (List String)
  | [] => some []
  | cur :: rest => do
    let fb ← getFallbackPattern cur
    let next := match rest with | [] => "" | n :: _ => n
    let kept ← filterFallbacks all next fb
    let tl ← possibleGo all rest
    pure (cur :: (kept ++ tl))

def possibleLocales (prefs : List String) : Option (List String) :=
  possibleGo prefs prefs

/-- The candidate sequence of `lookupLocale` after alias substitution
(the list whose first supported member is returned). -/
def lookupCandidates (preferred : List String) (aliases : List (String × String)) :
    Option (List String) := do
  let prefs ← getCanonicalLocales preferred
  let al ← canonAliases aliases
  let possible ← possibleLocales prefs
  pure (possible.map fun l => (objGet al l).getD l)

/-- `lookupLocale(preferredLocales, supportedLocales, aliases)`. The outer
`Option` models the exception thrown on a malformed tag; the inner one is
the `string | undefined` result. -/
def lookupLocale (preferred supported : List String) (aliases : List (String × String)) :
    Option (Option String) := do
  let prefs ← getCanonicalLocales preferred
  let supp ← getCanonicalLocales supported
  let al ← canonAliases aliases
  let possible ← possibleLocales prefs
  let subd := possible.map fun l => (objGet al l).getD l
  pure ((subd.filter fun l => supp.contains l).head?)

/-! ### Pluralization rules (`pluralization.ts`) -/

inductive PluralCategory where
  | zero | one | two | few | many | other
deriving DecidableEq, Repr

/-- The enum's string value, used as a tree segment during plural descent. -/
def PluralCategory.str : PluralCategory → String
  | .zero => "zero"
  | .one => "one"
  | .two => "two"
  | .few => "few"
  | .many => "many"
  | .other => "other"

/-- `includes` from `utils/array.ts` (an `indexOf`-based membership test). -/
def includes (arr : List Int) (val : Int) : Bool :=
  arr.contains val

/-- Counts are modelled as integers, so the source's
`Math.floor(n) === n` test holds and `%` is `Int.tmod`. -/
def arabic (n : Int) : PluralCategory :=
  let mod100 := n.tmod 100
  if n = 0 then .zero
  else if n = 1 then .one
  else if n = 2 then .two
  else if 3 ≤ mod100 ∧ mod100 ≤ 10 then .few
  else if 11 ≤ mod100 ∧ mod100 ≤ 99 then .many
  else .other

def eastSlavic (n : Int) : PluralCategory :=
  let mod10 := n.tmod 10
  let mod100 := n.tmod 100
  if mod10 = 1 ∧ mod100 ≠ 11 then .one
  else if includes [2, 3, 4] mod10 && !(includes [12, 13, 14] mod100) then .few
  else if mod10 = 0 || includes [5, 6, 7, 8, 9] mod10 || includes [11, 12, 13, 14] mod100 then
    .many
  else .other

def oneOther (n : Int) : PluralCategory :=
  if n = 1 then .one else .other

def oneTwoOther (n : Int) : PluralCategory :=
  if n = 1 then .one else if n = 2 then .two else .other

def oneUpToTwoOther (n : Int) : PluralCategory :=
  if 0 ≤ n ∧ n < 2 then .one else .other

def oneWithZeroOther (n : Int) : PluralCategory :=
  if n = 0 ∨ n = 1 then .one else .other

/-- `other()` takes no parameter in the source; the count passed at the call
site is ignored. -/
def other (_ : Int) : PluralCategory := .other

def polish (n : Int) : PluralCategory :=
  let mod10 := n.tmod 10
  let mod100 := n.tmod 100
  if n = 1 then .one
  else if includes [2, 3, 4] mod10 && !(includes [12, 13, 14] mod100) then .few
  else if includes [0, 1, 5, 6, 7, 8, 9] mod10 || includes [12, 13, 14] mod100 then .many
  else .other

def westSlavic (n : Int) : PluralCategory :=
  if n = 1 then .one else if includes [2, 3, 4] n then .few else .other

abbrev Rule := Int → PluralCategory

abbrev Rules := List (String × Rule)

def getRule : Rules → String → Option Rule
  | [], _ => none
  | (k, v) :: r, key => if k = key then some v else getRule r key

/-- `DEFAULT_RULES`, in source order. -/
def DEFAULT_RULES : Rules :=
  [("af", oneOther), ("ar", arabic), ("be", eastSlavic), ("cs", westSlavic),
   ("de", oneOther), ("el", oneOther), ("en", oneOther), ("es", oneOther),
   ("fi", oneOther), ("fr", oneUpToTwoOther), ("hi", oneWithZeroOther),
   ("id", other), ("it", oneOther), ("iu", oneTwoOther), ("ja", other),
   ("ko", other), ("ms", other), ("my", other), ("ne", oneOther),
   ("nl", oneOther), ("pl", polish), ("pt", oneOther), ("th", other),
   ("tr", other), ("sk", westSlavic), ("sw", oneOther), ("uk", eastSlavic),
   ("ru", eastSlavic), ("vi", other), ("zh", other)]

/-! ### Phrase trees -/

/-!
`Phrases`: a nested string-keyed object whose values are sub-trees or
leaf strings (`Phrases | string`). `PEntries` is the entry list of one
object, in insertion order. -/
mutual

inductive PNode where
  | leaf (s : String)
  | branch (es : PEntries)
deriving Repr

inductive PEntries where
  | nil
  | cons (k : String) (v : PNode) (rest : PEntries)
deriving Repr

end

/-- Build a phrase object from a literal list of entries. -/
def PEntries.ofList : List (String × PNode) → PEntries
  | [] => .nil
  | (k, v) :: r => .cons k v (PEntries.ofList r)

mutual

def PNode.size : PNode → Nat
  | .leaf _ => 1
  | .branch es => 1 + es.size

def PEntries.size : PEntries → Nat
  | .nil => 0
  | .cons _ v r => 1 + v.size + r.size

end

/-- Property lookup in a phrase object (keys are unique). -/
def getE : PEntries → String → Option PNode
  | .nil, _ => none
  | .cons k v r, key => if k = key then some v else getE r key

/-- Property assignment in a phrase object: overwrite in place or append. -/
def setE : PEntries → String → PNode → PEntries
  | .nil, k, v => .cons k v .nil
  | .cons k0 v0 r, k, v => if k0 = k then .cons k v r else .cons k0 v0 (setE r k v)

/-! ### Key grammar

`CONTEXT_CHARACTERS = '[A-Za-z0-9-_]+'`, `DELIMITER = '.'`,
`VALID_KEY_CONTEXT = ^[A-Za-z0-9-_]+$` and
`VALID_KEY = ^[A-Za-z0-9-_]+(.[A-Za-z0-9-_]+)*$`.
The delimiter is spliced into `VALID_KEY` unescaped, so the `.` between
segments is the regex wildcard (any character except a newline), not a
literal dot. -/

def isWordChar (c : Char) : Bool :=
  isAsciiLetter c || isAsciiDigit c || c = '-' || c = '_'

/-- The JavaScript LineTerminator set, which the wildcard `.` (no `s` flag)
does not match: LF, CR, LINE SEPARATOR, PARAGRAPH SEPARATOR. -/
def isLineTerminator (c : Char) : Bool :=
  c = '\n' || c = '\r' || c = '\u2028' || c = '\u2029'

mutual

/-- State of the `VALID_KEY` matcher after at least one character of the
current `[A-Za-z0-9-_]+` segment: either extend the segment, or read the
wildcard `.` (any character except a LineTerminator) and start a new
segment. -/
def afterWord : List Char → Bool
  | [] => true
  | c :: rest => (isWordChar c && afterWord rest) || (!(isLineTerminator c) && needWord rest)

/-- State of the `VALID_KEY` matcher at the start of a segment. -/
def needWord : List Char → Bool
  | [] => false
  | c :: rest => isWordChar c && afterWord rest

end

/-- `key.match(VALID_KEY) !== null` for the default key format. -/
def validKey (l : List Char) : Bool := needWord l

/-- `context.match(VALID_KEY_CONTEXT) !== null`: one or more word characters. -/
def validContext (s : String) : Bool :=
  !(s.data.isEmpty) && s.data.all isWordChar

/-! ### Interpolation data -/

/-- A value of `LookupData`: `string | number` (numbers are modelled as
integers). -/
inductive TValue where
  | str (s : String)
  | num (n : Int)
deriving Repr

abbrev LookupData := List (String × TValue)

def dataGet : LookupData → String → Option TValue
  | [], _ => none
  | (k, v) :: r, key => if k = key then some v else dataGet r key

/-- `typeof data.count === 'number'`. -/
def dataCount (d : LookupData) : Option Int :=
  match dataGet d "count" with
  | some (.num n) => some n
  | _ => none

/-- The replacement callback: strings pass through, numbers print in
decimal. -/
def valueToString : TValue → String
  | .str s => s
  | .num n => toString n

/-- Split at the first `}`: the characters before it and the rest after it
(`[^}]*` cannot cross a closing brace). -/
def splitAtBrace : List Char → Option (List Char × List Char)
  | [] => none
  | c :: r =>
    if c = '}' then some ([], r)
    else (splitAtBrace r).map fun x => (c :: x.1, x.2)

/-- The replacement for one matched placeholder `%{name}`: `data[name]`
stringified when bound, the full match verbatim when not. -/
def replacedText (d : LookupData) (name : List Char) : List Char :=
  match dataGet d (String.mk name) with
  | some v => (valueToString v).data
  | none => '%' :: '{' :: (name ++ ['}'])

/-- `phrase.replace(/%{([^}]*)}/g, callback)`: scan left to right; at `%{`
with a later closing brace, replace by `data[name]` when bound (else leave
the placeholder verbatim) and continue after the `}`; otherwise copy one
character. The fuel argument (the input length at the top-level call)
only bounds the recursion; it never runs out because every step consumes
at least one character. -/
def interpGo (d : LookupData) : Nat → List Char → List Char
  | _, [] => []
  | _, [c] => [c]
  | 0, l => l
  | fuel + 1, c1 :: c2 :: rest =>
    if c1 = '%' ∧ c2 = '{' then
      match splitAtBrace rest with
      | some (name, rest2) => replacedText d name ++ interpGo d fuel rest2
      | none => c1 :: interpGo d fuel (c2 :: rest)
    else c1 :: interpGo d fuel (c2 :: rest)

def interpolate (d : LookupData) (l : List Char) : List Char :=
  interpGo d l.length l

/-! ### `lookupPhrase` -/

/-- One step of the context walk:
`phrase = isPhrases(phrase) ? phrase[context] : undefined`. -/
def phraseStep (p : Option PNode) (context : String) : Option PNode :=
  match p with
  | some (.branch b) => getE b context
  | _ => none

/-- The body of the per-locale loop of `lookupPhrase`: walk the contexts,
optionally descend one plural-category level, and interpolate a leaf.
`none` means this locale yields no phrase and the next one is tried. -/
def tryLocale (phrases : PEntries) (rules : Rules) (data : LookupData)
    (contexts : List String) (locale : String) : Option String :=
  let p1 := contexts.foldl phraseStep (getE phrases locale)
  let p2 := match p1, dataCount data with
    | some (.branch b), some n => getE b ((((getRule rules locale).getD other) n).str)
    | _, _ => p1
  match p2 with
  | some (.leaf s) => some (String.mk (interpolate data s.data))
  | _ => none

/-- `key.split('.')` (the default delimiter): split on every dot, keeping
empty segments, `[""]` for the empty string. -/
def splitKeyGo (acc : List Char) : List Char → List String
  | [] => [String.mk acc.reverse]
  | c :: r => if c = '.' then String.mk acc.reverse :: splitKeyGo [] r else splitKeyGo (c :: acc) r

def splitKey (key : String) : List String :=
  splitKeyGo [] key.data

/-- `lookupPhrase` at the default `delimiter`, `keyFormat` and
`interpolationFormat`. `none` models the invalid-key exception. -/
def lookupPhrase (data : LookupData) (key : String) (locales : List String)
    (phrases : PEntries) (rules : Rules) : Option String :=
  if validKey key.data then
    some ((locales.findSome? (tryLocale phrases rules data (splitKey key))).getD key)
  else none

/-! ### `mergePhrases` -/

/-- The target sub-tree reused for a source sub-tree: the existing branch
when present, otherwise a fresh empty object (a leaf is discarded). -/
def branchOf : Option PNode → PEntries
  | some (.branch b) => b
  | _ => .nil

/-- Merge of a source object into one target, processing the source keys in
order: a leaf overwrites, a sub-tree recurses into the (possibly fresh)
target sub-tree. `none` models the invalid-key-context exception. -/
def mergeB : PEntries → PEntries → Option PEntries
  | tgt, .nil => some tgt
  | tgt, .cons k v srest =>
    if validContext k then
      match v with
      | .leaf s => mergeB (setE tgt k (.leaf s)) srest
      | .branch sb =>
        match mergeB (branchOf (getE tgt k)) sb with
        | some ob => mergeB (setE tgt k (.branch ob)) srest
        | none => none
    else none

/-- `mergePhrases(targets, phrases)`: each target receives the same merge
(the source is read-only; targets are mutated independently). -/
def mergePhrases (targets : List PEntries) (src : PEntries) : Option (List PEntries) :=
  targets.mapM fun t => mergeB t src

/-! ### Specification-side definitions

The following definitions transcribe the *spec's words*, not the source;
they exist only to be compared against the source-derived definitions
above. -/

mutual

/-- Matcher state for the key shape described by the spec — segments of
`[A-Za-z0-9_-]+` joined by a *literal* dot — after at least one character
of the current segment. -/
def afterWordDot : List Char → Bool
  | [] => true
  | c :: rest => (isWordChar c && afterWordDot rest) || (c = '.' && needWordDot rest)

/-- Matcher state at the start of a segment of the spec's key shape. -/
def needWordDot : List Char → Bool
  | [] => false
  | c :: rest => isWordChar c && afterWordDot rest

end

/-- The key shape the spec claims is required: one or more word segments
joined by literal dots. -/
def dotKey (l : List Char) : Bool := needWordDot l

/-- The candidate sequence described by the spec's words: visit each
canonicalized preferred locale in order, emit it, then append its fallback
chain minus entries present verbatim anywhere in the preferred list and
minus entries occurring as substrings of the next preferred locale. -/
def claimCandidates (prefs : List String) : Option (List String) :=
  (((prefs.zip (prefs.drop 1 ++ [""])).mapM fun (cn : String × String) => do
      let fb ← getFallbackPattern cn.1
      pure (cn.1 :: fb.filter fun s => !(prefs.contains s) && !(containsSubStr s cn.2))).map
    List.flatten)


/-! ## Supporting lemmas -/

theorem toNat_ofNat_lt {n : Nat} (h : n < 55296) : (Char.ofNat n).toNat = n := by
  have hv : n.isValidChar := Or.inl h
  simp [Char.ofNat, hv, Char.ofNatAux, Char.toNat, UInt32.toNat]

theorem char_eq_iff_toNat {a b : Char} : a = b ↔ a.toNat = b.toNat := by
  constructor
  · intro h; rw [h]
  · intro h; exact Char.ext (UInt32.ext h)

theorem toLower_toNat (c : Char) :
    c.toLower.toNat = if 65 ≤ c.toNat ∧ c.toNat ≤ 90 then c.toNat + 32 else c.toNat := by
  show (if c.toNat ≥ 65 ∧ c.toNat ≤ 90 then Char.ofNat (c.toNat + 32) else c).toNat = _
  by_cases h : 65 ≤ c.toNat ∧ c.toNat ≤ 90
  · rw [if_pos h, if_pos h, toNat_ofNat_lt (by omega)]
  · rw [if_neg h, if_neg h]

theorem toUpper_toNat (c : Char) :
    c.toUpper.toNat = if 97 ≤ c.toNat ∧ c.toNat ≤ 122 then c.toNat - 32 else c.toNat := by
  show (if c.toNat ≥ 97 ∧ c.toNat ≤ 122 then Char.ofNat (c.toNat - 32) else c).toNat = _
  by_cases h : 97 ≤ c.toNat ∧ c.toNat ≤ 122
  · rw [if_pos h, if_pos h, toNat_ofNat_lt (by omega)]
  · rw [if_neg h, if_neg h]

theorem toLower_toLower (c : Char) : c.toLower.toLower = c.toLower := by
  rw [char_eq_iff_toNat, toLower_toNat, toLower_toNat]
  split_ifs <;> omega

theorem toUpper_toLower (c : Char) : c.toLower.toUpper = c.toUpper := by
  rw [char_eq_iff_toNat, toUpper_toNat, toUpper_toNat, toLower_toNat]
  by_cases h : 65 ≤ c.toNat ∧ c.toNat ≤ 90
  · have h97 : 97 ≤ c.toNat + 32 ∧ c.toNat + 32 ≤ 122 := by omega
    have hn : ¬ (97 ≤ c.toNat ∧ c.toNat ≤ 122) := by omega
    rw [if_pos h, if_pos h97, if_neg hn]
    omega
  · rw [if_neg h]

theorem isAsciiLetter_toLower (c : Char) : isAsciiLetter c.toLower = isAsciiLetter c := by
  rw [isAsciiLetter, isAsciiLetter, Bool.eq_iff_iff, Bool.or_eq_true, Bool.or_eq_true,
    decide_eq_true_eq, decide_eq_true_eq, decide_eq_true_eq, decide_eq_true_eq, toLower_toNat]
  split_ifs with h <;> omega

theorem isAsciiDigit_toLower (c : Char) : isAsciiDigit c.toLower = isAsciiDigit c := by
  rw [isAsciiDigit, isAsciiDigit, Bool.eq_iff_iff, decide_eq_true_eq, decide_eq_true_eq,
    toLower_toNat]
  split_ifs with h <;> omega

/-- `toLower` leaves any character outside both ASCII letter ranges alone,
and no letter lowers onto such a character. -/
theorem toLower_eq_nonletter {d : Char}
    (hd : ¬ (65 ≤ d.toNat ∧ d.toNat ≤ 90) ∧ ¬ (97 ≤ d.toNat ∧ d.toNat ≤ 122)) (c : Char) :
    (c.toLower = d) ↔ (c = d) := by
  obtain ⟨hd1, hd2⟩ := hd
  rw [char_eq_iff_toNat, char_eq_iff_toNat (a := c), toLower_toNat]
  split_ifs with h
  · constructor <;> intro h2 <;> omega
  · exact Iff.rfl

theorem hyphen_range : ¬ (65 ≤ ('-' : Char).toNat ∧ ('-' : Char).toNat ≤ 90) ∧
    ¬ (97 ≤ ('-' : Char).toNat ∧ ('-' : Char).toNat ≤ 122) := by decide

theorem lbracket_range : ¬ (65 ≤ ('[' : Char).toNat ∧ ('[' : Char).toNat ≤ 90) ∧
    ¬ (97 ≤ ('[' : Char).toNat ∧ ('[' : Char).toNat ≤ 122) := by decide

theorem rbracket_range : ¬ (65 ≤ (']' : Char).toNat ∧ (']' : Char).toNat ≤ 90) ∧
    ¬ (97 ≤ (']' : Char).toNat ∧ (']' : Char).toNat ≤ 122) := by decide

theorem splitAtBrace_length {l a b : List Char} (h : splitAtBrace l = some (a, b)) :
    b.length < l.length := by
  induction l generalizing a b with
  | nil => exact absurd h (by simp [splitAtBrace])
  | cons c r ih =>
    by_cases hc : c = '}'
    · rw [splitAtBrace, if_pos hc] at h
      injection h with h2
      injection h2 with h3 h4
      rw [← h4, List.length_cons]
      omega
    · rw [splitAtBrace, if_neg hc] at h
      cases hs : splitAtBrace r with
      | none => rw [hs] at h; exact absurd h (by simp)
      | some x =>
        rw [hs] at h
        have hx := ih (a := x.1) (b := x.2) (by rw [hs])
        simp only [Option.map_some', Option.some.injEq, Prod.mk.injEq] at h
        obtain ⟨h3, h4⟩ := h
        rw [← h4, List.length_cons]
        omega

/-! ## Claim C2 -/

/-- **C2.** The claim states that every string of 4–8 ASCII letters parses as
a bare primary language subtag. The code rejects the 4-letter input `"hant"`
(the `[[A-Za-z]{4,8}]` alternative of `IETF_LANG_TAG` demands a literal `]`),
so the `LanguageTag` constructor throws: the claim describes the intended
BCP-47 grammar (cited by the code's own comment), the code deviates on it. -/
theorem C2_four_letter_tag_rejected :
    LanguageTag.parse "hant" = none ∧
    "hant".data.all isAsciiLetter = true ∧ "hant".data.length = 4 :=
  ⟨rfl, rfl, rfl⟩

/-! ## Claim C10 -/

/-- **C10.** `lookupLocale` returns the canonical spelling of the matched
locale, which can differ byte-wise from the caller's `supported` entry:
with supported `["EN-us"]` and preferred `["en-US"]` the result is the
canonical `"en-US"`, not the caller's original string `"EN-us"`. -/
theorem C10_canonical_result :
    lookupLocale ["en-US"] ["EN-us"] [] = some (some "en-US") ∧ "en-US" ≠ "EN-us" :=
  ⟨rfl, by decide⟩

/-! ## Claim C3 -/

theorem dot_nfa_imp (l : List Char) :
    (afterWordDot l = true → afterWord l = true) ∧
    (needWordDot l = true → needWord l = true) := by
  induction l with
  | nil =>
    refine ⟨fun _ => rfl, fun h => ?_⟩
    simp [needWordDot] at h
  | cons c r ih =>
    constructor
    · intro h
      rw [afterWordDot] at h
      rw [afterWord]
      simp only [Bool.or_eq_true, Bool.and_eq_true, decide_eq_true_eq,
        Bool.not_eq_true'] at h ⊢
      rcases h with ⟨hw, ha⟩ | ⟨hd, hn⟩
      · exact Or.inl ⟨hw, ih.1 ha⟩
      · refine Or.inr ⟨?_, ih.2 hn⟩
        subst hd
        decide
    · intro h
      rw [needWordDot] at h
      rw [needWord]
      simp only [Bool.and_eq_true] at h ⊢
      exact ⟨h.1, ih.1 h.2⟩

/-- **C3 (counterexample).** The claim says every key that is not a sequence
of `[A-Za-z0-9_-]+` segments joined by literal dots is rejected before any
tree is consulted. The key `"a#b"` is not of that shape, yet `lookupPhrase`
accepts it (no invalid-key error): the delimiter is spliced into
`VALID_KEY` unescaped, so the joining `.` is a regex wildcard. -/
theorem C3_counterexample :
    dotKey "a#b".data = false ∧
    lookupPhrase [] "a#b" [] .nil DEFAULT_RULES = some "a#b" ∧
    lookupPhrase [] "a#b" [] .nil DEFAULT_RULES ≠ none :=
  ⟨rfl, rfl, by decide⟩

/-- **C3 (amended).** With the default delimiter and key format,
`lookupPhrase` fails with the invalid-key error exactly when the key does
not match `^[A-Za-z0-9-_]+(.[A-Za-z0-9-_]+)*$` where `.` is the regex
wildcard (the unescaped delimiter): segments of word characters joined by
any single character *other than a LineTerminator* (`\n`, `\r`, U+2028,
U+2029). The rejection does not depend on the tree, data, rules or
locales. Every dot-joined key of the claimed shape is still accepted, and
keys joined by a line terminator, such as `"a\rb"`, are still rejected. -/
theorem C3_key_acceptance (data : LookupData) (key : String) (locales : List String)
    (phrases : PEntries) (rules : Rules) :
    (lookupPhrase data key locales phrases rules = none ↔ validKey key.data = false) ∧
    (dotKey key.data = true → validKey key.data = true) ∧
    lookupPhrase [] "a\rb" [] .nil DEFAULT_RULES = none := by
  refine ⟨?_, fun h => (dot_nfa_imp key.data).2 h, rfl⟩
  rw [lookupPhrase]
  by_cases h : validKey key.data
  · rw [if_pos h]
    simp [h]
  · rw [if_neg h]
    simp [Bool.not_eq_true] at h
    simp [h]

theorem C3_witness : validKey "a.b".data = true :=
  (C3_key_acceptance [] "a.b" [] .nil DEFAULT_RULES).2.1 (by decide)

/-! ## Claim C7 -/

theorem findSome?_all_none {α β : Type} {f : α → Option β} :
    ∀ {l : List α}, (∀ x ∈ l, f x = none) → l.findSome? f = none := by
  intro l
  induction l with
  | nil => intro _; rfl
  | cons a r ih =>
    intro h
    rw [List.findSome?]
    rw [h a (List.mem_cons_self a r)]
    exact ih fun x hx => h x (List.mem_cons_of_mem a hx)

theorem findSome?_append_first {α β : Type} {f : α → Option β} :
    ∀ {pre : List α} {rest : List α}, (∀ x ∈ pre, f x = none) →
      (pre ++ rest).findSome? f = rest.findSome? f := by
  intro pre
  induction pre with
  | nil => intro rest _; rfl
  | cons a r ih =>
    intro rest h
    rw [List.cons_append, List.findSome?, h a (List.mem_cons_self a r)]
    exact ih fun x hx => h x (List.mem_cons_of_mem a hx)

/-- **C7.** `lookupPhrase` tries the candidate locales strictly in order:
whenever the locales split as `pre ++ loc :: post` with every locale of
`pre` yielding nothing and `loc` yielding the (interpolated) string `s`,
the result is `s` — the locales after `loc` are irrelevant; and when every
candidate locale yields nothing, the result is the key itself, unchanged.
Concretely, `"no.such.key"` over `["en"]` returns `"no.such.key"`. -/
theorem C7_locale_order (data : LookupData) (key : String) (locales : List String)
    (phrases : PEntries) (rules : Rules) (hk : validKey key.data = true) :
    (∀ pre loc post s, locales = pre ++ loc :: post →
        (∀ l ∈ pre, tryLocale phrases rules data (splitKey key) l = none) →
        tryLocale phrases rules data (splitKey key) loc = some s →
        lookupPhrase data key locales phrases rules = some s) ∧
    ((∀ l ∈ locales, tryLocale phrases rules data (splitKey key) l = none) →
        lookupPhrase data key locales phrases rules = some key) ∧
    lookupPhrase [] "no.such.key" ["en"]
      (.ofList [("en", .branch (.ofList [("a", .branch (.ofList [("b", .leaf "X")]))]))])
      DEFAULT_RULES = some "no.such.key" := by
  refine ⟨?_, ?_, rfl⟩
  · intro pre loc post s hsplit hpre hloc
    rw [lookupPhrase, if_pos hk, hsplit, findSome?_append_first hpre, List.findSome?, hloc]
    rfl
  · intro hall
    rw [lookupPhrase, if_pos hk, findSome?_all_none hall]
    rfl

theorem C7_witness :
    lookupPhrase [] "a.b" ["ja", "en"]
      (.ofList [("en", .branch (.ofList [("a", .branch (.ofList [("b", .leaf "X")]))]))])
      DEFAULT_RULES = some "X" :=
  (C7_locale_order [] "a.b" ["ja", "en"]
      (.ofList [("en", .branch (.ofList [("a", .branch (.ofList [("b", .leaf "X")]))]))])
      DEFAULT_RULES (by decide)).1 ["ja"] "en" [] "X" rfl
    (by
      intro l hl
      have : l = "ja" := List.mem_singleton.mp hl
      rw [this]
      rfl)
    rfl

/-! ## Claim C8 -/

theorem splitAtBrace_append {name rest : List Char} (h : '}' ∉ name) :
    splitAtBrace (name ++ '}' :: rest) = some (name, rest) := by
  induction name with
  | nil => rfl
  | cons c r ih =>
    have hc : ¬ (c = '}') := fun he => h (he ▸ List.mem_cons_self c r)
    rw [List.cons_append, splitAtBrace, if_neg hc,
      ih fun hm => h (List.mem_cons_of_mem c hm)]
    rfl

theorem interpGo_step_some (d : LookupData) (f : Nat) (rest name rest2 : List Char)
    (hsp : splitAtBrace rest = some (name, rest2)) :
    interpGo d (f + 1) ('%' :: '{' :: rest) = replacedText d name ++ interpGo d f rest2 := by
  rw [interpGo, if_pos ⟨rfl, rfl⟩, hsp]

theorem interpGo_step_none (d : LookupData) (f : Nat) (rest : List Char)
    (hsp : splitAtBrace rest = none) :
    interpGo d (f + 1) ('%' :: '{' :: rest) = '%' :: interpGo d f ('{' :: rest) := by
  rw [interpGo, if_pos ⟨rfl, rfl⟩, hsp]

theorem interpGo_step_plain (d : LookupData) (f : Nat) (c1 c2 : Char) (rest : List Char)
    (hc : ¬ (c1 = '%' ∧ c2 = '{')) :
    interpGo d (f + 1) (c1 :: c2 :: rest) = c1 :: interpGo d f (c2 :: rest) := by
  rw [interpGo, if_neg hc]

theorem interpGo_irrel (d : LookupData) :
    ∀ f l, l.length ≤ f → interpGo d f l = interpolate d l := by
  intro f
  induction f using Nat.strong_induction_on with
  | _ f ih =>
    intro l hl
    cases l with
    | nil => cases f <;> rfl
    | cons c1 ltl =>
      cases ltl with
      | nil => cases f <;> rfl
      | cons c2 rest =>
        have hlen : rest.length + 2 ≤ f := by simpa using hl
        obtain ⟨f2, rfl⟩ : ∃ f2, f = f2 + 1 := ⟨f - 1, by omega⟩
        rw [interpolate]
        show _ = interpGo d (rest.length + 1 + 1) (c1 :: c2 :: rest)
        by_cases hc : c1 = '%' ∧ c2 = '{'
        · obtain ⟨rfl, rfl⟩ := hc
          cases hsp : splitAtBrace rest with
          | none =>
            rw [interpGo_step_none d f2 rest hsp,
              interpGo_step_none d (rest.length + 1) rest hsp,
              ih f2 (by omega) ('{' :: rest) (by simp only [List.length_cons]; omega),
              ih (rest.length + 1) (by omega) ('{' :: rest) (by simp only [List.length_cons]; omega)]
          | some x =>
            obtain ⟨name, rest2⟩ := x
            have hx := splitAtBrace_length hsp
            rw [interpGo_step_some d f2 rest name rest2 hsp,
              interpGo_step_some d (rest.length + 1) rest name rest2 hsp,
              ih f2 (by omega) rest2 (by omega),
              ih (rest.length + 1) (by omega) rest2 (by omega)]
        · rw [interpGo_step_plain d f2 c1 c2 rest hc,
            interpGo_step_plain d (rest.length + 1) c1 c2 rest hc,
            ih f2 (by omega) (c2 :: rest) (by simp only [List.length_cons]; omega),
            ih (rest.length + 1) (by omega) (c2 :: rest) (by simp only [List.length_cons]; omega)]

/-- One step of the global replace at a well-formed placeholder. -/
theorem interpolate_placeholder (d : LookupData) (name rest : List Char) (h : '}' ∉ name) :
    interpolate d ('%' :: '{' :: (name ++ '}' :: rest)) =
      replacedText d name ++ interpolate d rest := by
  rw [interpolate]
  show interpGo d ((name ++ '}' :: rest).length + 1 + 1) _ = _
  rw [interpGo_step_some d _ _ name rest (splitAtBrace_append h)]
  rw [interpGo_irrel d _ rest (by simp only [List.length_append, List.length_cons]; omega)]

/-- **C8.** When `lookupPhrase` reaches a leaf string, a placeholder
`%{name}` is replaced by `data[name]` — strings pass through, numbers
print in decimal — and a placeholder whose name is absent from `data`
stays verbatim; the template `"%{a} %{b}"` with `data = {a: "x"}` yields
`"x %{b}"`. -/
theorem C8_interpolation :
    (∀ (d : LookupData) (name : List Char) (v : String) (rest : List Char), '}' ∉ name →
       dataGet d (String.mk name) = some (.str v) →
       interpolate d ('%' :: '{' :: (name ++ '}' :: rest)) = v.data ++ interpolate d rest) ∧
    (∀ (d : LookupData) (name : List Char) (n : Int) (rest : List Char), '}' ∉ name →
       dataGet d (String.mk name) = some (.num n) →
       interpolate d ('%' :: '{' :: (name ++ '}' :: rest)) =
         (toString n).data ++ interpolate d rest) ∧
    (∀ (d : LookupData) (name rest : List Char), '}' ∉ name →
       dataGet d (String.mk name) = none →
       interpolate d ('%' :: '{' :: (name ++ '}' :: rest)) =
         '%' :: '{' :: (name ++ ['}']) ++ interpolate d rest) ∧
    lookupPhrase [("a", .str "x")] "t" ["en"]
      (.ofList [("en", .branch (.ofList [("t", .leaf "%{a} %{b}")]))])
      DEFAULT_RULES = some "x %{b}" := by
  refine ⟨?_, ?_, ?_, rfl⟩
  · intro d name v rest h hget
    rw [interpolate_placeholder d name rest h, replacedText, hget]
    exact rfl
  · intro d name n rest h hget
    rw [interpolate_placeholder d name rest h, replacedText, hget]
    exact rfl
  · intro d name rest h hget
    rw [interpolate_placeholder d name rest h, replacedText, hget]

theorem C8_witness :
    interpolate [("a", TValue.str "x")] ('%' :: '{' :: ("a".data ++ '}' :: " tail".data)) =
      "x".data ++ interpolate [("a", TValue.str "x")] " tail".data :=
  C8_interpolation.1 [("a", TValue.str "x")] "a".data "x" " tail".data (by decide) rfl

/-! ## Claim C1 -/

/-- **C1 (counterexample).** The claim says rule selection falls back from
the exact locale to the bare language (`en-GB` → `en`), so with the default
table (which registers `en` but not `en-GB`) a plural lookup under locale
`"en-GB"` with count 1 would use `oneOther`, select category `one`, and
return `"one!"`. The code consults only `rules[locale]` and otherwise uses
the constant `other` rule, returning `"other!"`. -/
theorem C1_counterexample :
    lookupPhrase [("count", .num 1)] "plural" ["en-GB"]
      (.ofList [("en-GB", .branch (.ofList [("plural", .branch (.ofList
        [("one", .leaf "one!"), ("other", .leaf "other!")]))]))])
      DEFAULT_RULES = some "other!" ∧
    getRule DEFAULT_RULES "en" = some oneOther ∧
    getRule DEFAULT_RULES "en-GB" = none ∧
    oneOther 1 = PluralCategory.one ∧
    (LanguageTag.parse "en-GB").map LanguageTag.language = some "en" ∧
    ("other!" : String) ≠ "one!" :=
  ⟨rfl, rfl, rfl, rfl, rfl, by decide⟩

/-- **C1 (amended).** In `lookupPhrase`, when the key walk lands on a
sub-tree and `data.count` is a number, the plural rule is selected by
looking up the *exact* locale string only (`rules[locale] || other`): a
registered exact rule is applied, otherwise the constant `other` rule is
used — there is no bare-language fallback step. With rules registering only
`en` and candidate locale `en-GB`, the `other` rule is applied. -/
theorem C1_plural_rule_selection :
    (∀ (rules : Rules) (locale : String) (n : Int), getRule rules locale = none →
       ((getRule rules locale).getD other) n = PluralCategory.other) ∧
    (∀ (rules : Rules) (locale : String) (r : Rule), getRule rules locale = some r →
       ∀ n, ((getRule rules locale).getD other) n = r n) ∧
    (∀ (phrases : PEntries) (rules : Rules) (data : LookupData) (contexts : List String)
       (locale : String) (b : PEntries) (n : Int),
       contexts.foldl phraseStep (getE phrases locale) = some (.branch b) →
       dataCount data = some n →
       tryLocale phrases rules data contexts locale =
         (match getE b ((((getRule rules locale).getD other) n).str) with
          | some (.leaf s) => some (String.mk (interpolate data s.data))
          | _ => none)) ∧
    lookupPhrase [("count", .num 1)] "plural" ["en-GB"]
      (.ofList [("en-GB", .branch (.ofList [("plural", .branch (.ofList
        [("one", .leaf "one!"), ("other", .leaf "other!")]))]))])
      DEFAULT_RULES = some "other!" := by
  refine ⟨?_, ?_, ?_, rfl⟩
  · intro rules locale n h
    rw [h]
    rfl
  · intro rules locale r h n
    rw [h]
    rfl
  · intro phrases rules data contexts locale b n h1 h2
    simp only [tryLocale]
    rw [h1, h2]

theorem C1_witness :
    ((getRule DEFAULT_RULES "en-GB").getD other) 1 = PluralCategory.other :=
  C1_plural_rule_selection.1 DEFAULT_RULES "en-GB" 1 rfl

/-! ## Claim C6 -/

/-- **C6.** For well-formed inputs (no exception), a defined result of
`lookupLocale` is always a member of the canonicalized supported set; and
when no candidate — after fallback expansion and alias substitution — lies
in the supported set, the result is `undefined`. Concretely, preferred
`["ja"]` against supported `["en", "pt"]` yields `undefined`. -/
theorem C6_result_supported :
    (∀ (pref supp : List String) (al : List (String × String)) (r : Option String),
       lookupLocale pref supp al = some r →
       ∀ l, r = some l → ∃ S, getCanonicalLocales supp = some S ∧ l ∈ S) ∧
    (∀ (pref supp : List String) (al : List (String × String)) (S cands : List String),
       getCanonicalLocales supp = some S → lookupCandidates pref al = some cands →
       (∀ c ∈ cands, ¬ c ∈ S) → lookupLocale pref supp al = some none) ∧
    lookupLocale ["ja"] ["en", "pt"] [] = some none := by
  refine ⟨?_, ?_, rfl⟩
  · intro pref supp al r h l hl
    subst hl
    simp only [lookupLocale, Option.bind_eq_bind, Option.bind_eq_some, Option.pure_def,
      Option.some.injEq] at h
    obtain ⟨prefs, h1, S, h2, al2, h3, poss, h4, h5⟩ := h
    refine ⟨S, h2, ?_⟩
    obtain ⟨ys, hys⟩ := List.head?_eq_some_iff.mp h5
    have hmem : l ∈ (poss.map fun x => (objGet al2 x).getD x).filter fun x => S.contains x := by
      rw [hys]
      exact List.mem_cons_self _ _
    have hcont := (List.mem_filter.mp hmem).2
    exact List.elem_iff.mp hcont
  · intro pref supp al S cands h2 hc hnone
    simp only [lookupCandidates, Option.bind_eq_bind, Option.bind_eq_some, Option.pure_def,
      Option.some.injEq] at hc
    obtain ⟨prefs, h1, al2, h3, poss, h4, h5⟩ := hc
    simp only [lookupLocale, Option.bind_eq_bind, Option.bind_eq_some, Option.pure_def,
      Option.some.injEq]
    refine ⟨prefs, h1, S, h2, al2, h3, poss, h4, ?_⟩
    have hfil : ((poss.map fun x => (objGet al2 x).getD x).filter fun x => S.contains x) = [] := by
      rw [List.filter_eq_nil_iff]
      intro a ha
      intro hcont
      exact hnone a (h5 ▸ ha) (List.elem_iff.mp hcont)
    rw [hfil]
    rfl

theorem C6_witness :
    ∃ S, getCanonicalLocales ["pt", "zh"] = some S ∧ "pt" ∈ S :=
  C6_result_supported.1 ["zh-Hant-HK", "pt", "zh"] ["pt", "zh"] [] (some "pt") rfl "pt" rfl

/-! ## Claim C4 -/

theorem map_flatten_bind (M : Option (List (List String))) (head : List String) (cur : String) :
    ((M.map List.flatten).bind fun tl => some (cur :: (head ++ tl))) =
      (M.bind fun xs => some ((cur :: head) :: xs)).map List.flatten := by
  cases M <;> rfl

theorem patTokensGo_lit :
    ∀ (l : List Char) (fuel : Nat), l.length ≤ fuel → '[' ∉ l →
      patTokensGo fuel l = some (l.map PatTok.lit) := by
  intro l
  induction l with
  | nil => intro fuel _ _; cases fuel <;> rfl
  | cons c rest ih =>
    intro fuel hlen hbr
    obtain ⟨f, rfl⟩ : ∃ f, fuel = f + 1 :=
      ⟨fuel - 1, by simp at hlen; omega⟩
    have hc : ¬ (c = '[') := fun he => hbr (he ▸ List.mem_cons_self c rest)
    rw [patTokensGo, if_neg hc, ih f (by simpa using hlen) fun hm => hbr (List.mem_cons_of_mem c hm)]
    rfl

theorem toksMatchAt_lit : ∀ (l r : List Char),
    toksMatchAt (l.map PatTok.lit) r = isPrefixChars l r := by
  intro l
  induction l with
  | nil => intro r; rfl
  | cons a as ih =>
    intro r
    cases r with
    | nil => rfl
    | cons b bs => rw [List.map_cons, toksMatchAt, isPrefixChars, ih bs]

theorem toksSearch_lit (l : List Char) : ∀ next : List Char,
    toksSearch (l.map PatTok.lit) next = containsSubChars l next := by
  intro next
  induction next with
  | nil => rw [toksSearch, containsSubChars, toksMatchAt_lit]
  | cons c r ih => rw [toksSearch, containsSubChars, toksMatchAt_lit, ih]

/-- For a pattern without `[`, the regex compiled by `search` is all
literals and the test is exactly substring containment (a `]` with no open
class is a literal, and letters, digits and `-` outside a class are
literals). -/
theorem searchMatches_lit (pat next : String) (h : '[' ∉ pat.data) :
    searchMatches pat next = some (containsSubStr pat next) := by
  rw [searchMatches, patTokens, patTokensGo_lit pat.data _ (Nat.le_refl _) h,
    Option.map_some', toksSearch_lit]
  rfl

theorem filterFallbacks_lit (all : List String) (next : String) :
    ∀ fb : List String, (∀ s ∈ fb, '[' ∉ s.data) →
      filterFallbacks all next fb =
        some (fb.filter fun s => !(all.contains s) && !(containsSubStr s next)) := by
  intro fb
  induction fb with
  | nil => intro _; rfl
  | cons s r ih =>
    intro h
    have hr := fun x hx => h x (List.mem_cons_of_mem s hx)
    rw [filterFallbacks, List.filter_cons]
    by_cases hc : all.contains s = true
    · rw [if_pos hc, ih hr]
      have hp : (!(all.contains s) && !(containsSubStr s next)) = false := by
        rw [hc]
        rfl
      rw [hp]
      rfl
    · have hc2 : all.contains s = false := by
        rw [Bool.not_eq_true] at hc
        exact hc
      rw [if_neg hc, Option.bind_eq_bind,
        searchMatches_lit s next (h s (List.mem_cons_self s r)), Option.some_bind, ih hr]
      simp only [Option.bind_eq_bind, Option.some_bind, Option.pure_def]
      have hp : (!(all.contains s) && !(containsSubStr s next)) = !(containsSubStr s next) := by
        rw [hc2]
        rfl
      rw [hp]
      by_cases hm : containsSubStr s next = true
      · rw [hm]
        rfl
      · have hm2 : containsSubStr s next = false := by
          rw [Bool.not_eq_true] at hm
          exact hm
        rw [hm2]
        rfl

theorem possibleGo_eq (all : List String) :
    ∀ l : List String,
      (∀ cur ∈ l, ∀ s ∈ (getFallbackPattern cur).getD [], '[' ∉ s.data) →
      possibleGo all l =
        (((l.zip (l.drop 1 ++ [""])).mapM' fun (cn : String × String) => do
            let fb ← getFallbackPattern cn.1
            pure (cn.1 :: fb.filter fun s => !(all.contains s) && !(containsSubStr s cn.2))).map
          List.flatten) := by
  intro l
  induction l with
  | nil => intro _; rfl
  | cons cur rest ih =>
    intro hbr
    have hcur : ∀ s ∈ (getFallbackPattern cur).getD [], '[' ∉ s.data :=
      hbr cur (List.mem_cons_self cur rest)
    have hrest : ∀ c ∈ rest, ∀ s ∈ (getFallbackPattern c).getD [], '[' ∉ s.data :=
      fun c hc => hbr c (List.mem_cons_of_mem cur hc)
    cases rest with
    | nil =>
      rw [possibleGo]
      cases hfb : getFallbackPattern cur with
      | none => simp [hfb]
      | some fb =>
        have hfb2 : ∀ s ∈ fb, '[' ∉ s.data := by
          rw [hfb] at hcur
          exact hcur
        simp [hfb, possibleGo, filterFallbacks_lit all "" fb hfb2]
    | cons r0 rtl =>
      rw [possibleGo]
      cases hfb : getFallbackPattern cur with
      | none => simp [hfb]
      | some fb =>
        have hfb2 : ∀ s ∈ fb, '[' ∉ s.data := by
          rw [hfb] at hcur
          exact hcur
        simp only [Option.bind_eq_bind, Option.some_bind, hfb,
          filterFallbacks_lit all r0 fb hfb2, ih hrest]
        simp only [List.zip_cons_cons, List.drop_succ_cons, List.drop_zero, List.cons_append,
          List.mapM'_cons, Option.bind_eq_bind, Option.some_bind, Option.pure_def]
        rw [map_flatten_bind]
        simp only [hfb, Option.some_bind]

/-- **C4 (counterexample).** The claim describes the drop test as
"occurs as a substring of the next preferred locale", but the program runs
`next.search(s)`, which compiles the fallback as a regular expression.
Canonical locales produced by the `[[A-Za-z]{4,8}]` alternative contain
`[`/`]`: the fallback `"ab[d]"` of `"ab[d]-Hant"` is *not* a substring of
the next preferred locale `"abd"`, yet `/ab[d]/` matches `"abd"`, so the
program drops it — the claimed candidate sequence keeps it — and with
supported `["ab[d]"]` the program resolves to `undefined` where the claimed
sequence would resolve `"ab[d]"`. -/
theorem C4_counterexample :
    containsSubStr "ab[d]" "abd" = false ∧
    searchMatches "ab[d]" "abd" = some true ∧
    getFallbackPattern "ab[d]-Hant" = some ["ab[d]-Hant", "ab[d]"] ∧
    possibleLocales ["ab[d]-Hant", "abd"] = some ["ab[d]-Hant", "abd"] ∧
    claimCandidates ["ab[d]-Hant", "abd"] = some ["ab[d]-Hant", "ab[d]", "abd"] ∧
    lookupLocale ["ab[d]-hant", "abd"] ["ab[d]"] [] = some none :=
  ⟨rfl, rfl, rfl, rfl, rfl, rfl⟩

/-- **C4 (amended).** `lookupLocale`'s candidate sequence visits each
canonicalized preferred locale in order, appending its fallback chain but
dropping entries already present verbatim in the preferred list or whose
compilation as a regular expression matches inside the next preferred
locale (`next.search(s) !== -1`). Whenever the fallbacks involved are free
of `[` — every locale not using the degenerate bracket alternative of the
tag grammar — the match test is literal substring containment and the
claimed description (`claimCandidates`) is exact. Consequently supported
`["pt", "zh"]` with preferred `["zh-Hant-HK", "pt", "zh"]` resolves to
`"pt"`, and supported `["zh-Hant", "zh-Hant-TW"]` with preferred
`["zh-Hant-HK", "zh-Hant-TW"]` resolves to `"zh-Hant-TW"`. -/
theorem C4_candidate_sequence :
    (∀ prefs : List String,
       (∀ cur ∈ prefs, ∀ s ∈ (getFallbackPattern cur).getD [], '[' ∉ s.data) →
       possibleLocales prefs = claimCandidates prefs) ∧
    (∀ pat next : String, '[' ∉ pat.data →
       searchMatches pat next = some (containsSubStr pat next)) ∧
    lookupLocale ["zh-Hant-HK", "pt", "zh"] ["pt", "zh"] [] = some (some "pt") ∧
    lookupLocale ["zh-Hant-HK", "zh-Hant-TW"] ["zh-Hant", "zh-Hant-TW"] [] =
      some (some "zh-Hant-TW") := by
  refine ⟨?_, searchMatches_lit, rfl, rfl⟩
  intro prefs h
  rw [possibleLocales, claimCandidates, possibleGo_eq prefs prefs h, List.mapM'_eq_mapM]

theorem C4_witness :
    possibleLocales ["zh-Hant-HK", "pt", "zh"] = claimCandidates ["zh-Hant-HK", "pt", "zh"] :=
  C4_candidate_sequence.1 ["zh-Hant-HK", "pt", "zh"] (by decide)

/-! ## Claim C9 -/

/-- The keys of a phrase object, in order. -/
def keysOf : PEntries → List String
  | .nil => []
  | .cons k _ r => k :: keysOf r

theorem getE_setE_self : ∀ (l : PEntries) (k : String) (v : PNode),
    getE (setE l k v) k = some v
  | .nil, k, v => by rw [setE, getE, if_pos rfl]
  | .cons k0 v0 r, k, v => by
    by_cases h : k0 = k
    · rw [setE, if_pos h, getE, if_pos rfl]
    · rw [setE, if_neg h, getE, if_neg h]
      exact getE_setE_self r k v

theorem getE_setE_ne : ∀ (l : PEntries) (k k2 : String) (v : PNode), k ≠ k2 →
    getE (setE l k v) k2 = getE l k2
  | .nil, k, k2, v, hne => by simp [setE, getE, hne]
  | .cons k0 v0 r, k, k2, v, hne => by
    by_cases h : k0 = k
    · rw [setE, if_pos h, getE, if_neg hne, getE, if_neg (h ▸ hne)]
    · rw [setE, if_neg h, getE, getE]
      by_cases h2 : k0 = k2
      · rw [if_pos h2, if_pos h2]
      · rw [if_neg h2, if_neg h2]
        exact getE_setE_ne r k k2 v hne

theorem getE_none_of_not_mem : ∀ (l : PEntries) (k : String), k ∉ keysOf l →
    getE l k = none
  | .nil, _, _ => rfl
  | .cons k0 v0 r, k, h => by
    have h0 : k0 ≠ k := fun he => h (he ▸ List.mem_cons_self k0 (keysOf r))
    rw [getE, if_neg h0]
    exact getE_none_of_not_mem r k fun hm => h (List.mem_cons_of_mem k0 hm)

theorem mergeB_spec : ∀ (n : Nat) (src : PEntries), src.size ≤ n → (keysOf src).Nodup →
    ∀ tgt out, mergeB tgt src = some out → ∀ k,
      (∀ s, getE src k = some (.leaf s) → getE out k = some (.leaf s)) ∧
      (∀ sb, getE src k = some (.branch sb) →
        ∃ ob, getE out k = some (.branch ob) ∧ mergeB (branchOf (getE tgt k)) sb = some ob) ∧
      (getE src k = none → getE out k = getE tgt k) := by
  intro n
  induction n using Nat.strong_induction_on with
  | _ n ih =>
    intro src hsize hnd tgt out hmerge k
    cases src with
    | nil =>
      simp only [mergeB, Option.some.injEq] at hmerge
      subst hmerge
      refine ⟨fun s hs => ?_, fun sb hs => ?_, fun _ => rfl⟩
      · rw [getE] at hs
        cases hs
      · rw [getE] at hs
        cases hs
    | cons k0 v0 srest =>
      rw [mergeB.eq_def] at hmerge
      dsimp only at hmerge
      by_cases hvc : validContext k0 = true
      · rw [if_pos hvc] at hmerge
        have hsz : PEntries.size (.cons k0 v0 srest) = 1 + v0.size + srest.size := rfl
        have hnd2 := List.nodup_cons.mp (by simpa [keysOf] using hnd)
        have hsrest_sz : srest.size ≤ n - 1 := by
          have hv := PNode.size
          have : 1 ≤ v0.size := by cases v0 <;> simp [PNode.size]
          omega
        cases v0 with
        | leaf s0 =>
          have hrec := ih (n - 1) (by omega) srest (by omega) hnd2.2
            (setE tgt k0 (.leaf s0)) out hmerge
          by_cases hk : k0 = k
          · subst hk
            have hnone : getE srest k0 = none := getE_none_of_not_mem srest k0 hnd2.1
            have hout : getE out k0 = some (.leaf s0) := by
              rw [(hrec k0).2.2 hnone, getE_setE_self]
            refine ⟨fun s hs => ?_, fun sb hs => ?_, fun hs => ?_⟩
            · rw [getE, if_pos rfl] at hs
              injection hs with hs
              cases hs
              exact hout
            · rw [getE, if_pos rfl] at hs
              injection hs with hs
              cases hs
            · rw [getE, if_pos rfl] at hs
              cases hs
          · refine ⟨fun s hs => ?_, fun sb hs => ?_, fun hs => ?_⟩
            · rw [getE, if_neg hk] at hs
              exact (hrec k).1 s hs
            · rw [getE, if_neg hk] at hs
              obtain ⟨ob, h1, h2⟩ := (hrec k).2.1 sb hs
              exact ⟨ob, h1, by rwa [getE_setE_ne tgt k0 k _ hk] at h2⟩
            · rw [getE, if_neg hk] at hs
              rw [(hrec k).2.2 hs, getE_setE_ne tgt k0 k _ hk]
        | branch sb0 =>
          dsimp only at hmerge
          cases hsub : mergeB (branchOf (getE tgt k0)) sb0 with
          | none =>
            rw [hsub] at hmerge
            cases hmerge
          | some ob =>
            rw [hsub] at hmerge
            dsimp only at hmerge
            have hrec := ih (n - 1) (by omega) srest (by omega) hnd2.2
              (setE tgt k0 (.branch ob)) out hmerge
            by_cases hk : k0 = k
            · subst hk
              have hnone : getE srest k0 = none := getE_none_of_not_mem srest k0 hnd2.1
              have hout : getE out k0 = some (.branch ob) := by
                rw [(hrec k0).2.2 hnone, getE_setE_self]
              refine ⟨fun s hs => ?_, fun sb hs => ?_, fun hs => ?_⟩
              · rw [getE, if_pos rfl] at hs
                injection hs with hs
                cases hs
              · rw [getE, if_pos rfl] at hs
                injection hs with hs
                cases hs
                exact ⟨ob, hout, hsub⟩
              · rw [getE, if_pos rfl] at hs
                cases hs
            · refine ⟨fun s hs => ?_, fun sb hs => ?_, fun hs => ?_⟩
              · rw [getE, if_neg hk] at hs
                exact (hrec k).1 s hs
              · rw [getE, if_neg hk] at hs
                obtain ⟨ob2, h1, h2⟩ := (hrec k).2.1 sb hs
                exact ⟨ob2, h1, by rwa [getE_setE_ne tgt k0 k _ hk] at h2⟩
              · rw [getE, if_neg hk] at hs
                rw [(hrec k).2.2 hs, getE_setE_ne tgt k0 k _ hk]
      · rw [if_neg hvc] at hmerge
        cases hmerge

theorem mapM_option_forall2 {α β : Type} (f : α → Option β) :
    ∀ (l : List α) (outs : List β), l.mapM f = some outs →
      List.Forall₂ (fun t o => f t = some o) l outs := by
  intro l
  induction l with
  | nil =>
    intro outs h
    rw [List.mapM_nil] at h
    injection h with h
    subst h
    exact .nil
  | cons a r ih =>
    intro outs h
    rw [List.mapM_cons] at h
    simp only [Option.bind_eq_bind, Option.bind_eq_some, Option.pure_def,
      Option.some.injEq] at h
    obtain ⟨x, hx, xs, hxs, rfl⟩ := h
    exact .cons hx (ih xs hxs)

/-- **C9.** After `mergePhrases(targets, source)` (each target receives the
independent merge `mergeB · source`), the source shape wins at every key of
every target: a source leaf ends up verbatim in the target (overwriting
whatever was there); a source sub-tree ends up as a sub-tree obtained by
recursively merging into the target's previous sub-tree at that key (a
fresh empty one if the target held a leaf or nothing); and keys absent from
the source are left untouched. The two spec examples: a leaf over a
sub-tree and a sub-tree over a leaf. -/
theorem C9_merge_shape :
    (∀ src : PEntries, (keysOf src).Nodup → ∀ tgt out, mergeB tgt src = some out → ∀ k,
       (∀ s, getE src k = some (.leaf s) → getE out k = some (.leaf s)) ∧
       (∀ sb, getE src k = some (.branch sb) →
         ∃ ob, getE out k = some (.branch ob) ∧ mergeB (branchOf (getE tgt k)) sb = some ob) ∧
       (getE src k = none → getE out k = getE tgt k)) ∧
    (∀ (targets : List PEntries) (src : PEntries) (outs : List PEntries),
       mergePhrases targets src = some outs →
       List.Forall₂ (fun t o => mergeB t src = some o) targets outs) ∧
    mergeB (.ofList [("foo", .branch (.ofList [("bar", .leaf "baz")])), ("other", .leaf "a")])
      (.ofList [("foo", .leaf "bar")]) =
      some (.ofList [("foo", .leaf "bar"), ("other", .leaf "a")]) ∧
    mergeB (.ofList [("foo", .leaf "bar"), ("other", .leaf "a")])
      (.ofList [("foo", .branch (.ofList [("bar", .leaf "baz")]))]) =
      some (.ofList [("foo", .branch (.ofList [("bar", .leaf "baz")])), ("other", .leaf "a")]) := by
  refine ⟨?_, ?_, rfl, rfl⟩
  · intro src hnd tgt out hmerge k
    exact mergeB_spec src.size src (Nat.le_refl _) hnd tgt out hmerge k
  · intro targets src outs h
    exact mapM_option_forall2 (fun t => mergeB t src) targets outs h

theorem C9_witness :
    getE (.ofList [("foo", .leaf "bar"), ("other", .leaf "a")]) "foo" = some (.leaf "bar") :=
  (C9_merge_shape.1 (.ofList [("foo", .leaf "bar")]) (by decide)
    (.ofList [("foo", .branch (.ofList [("bar", .leaf "baz")])), ("other", .leaf "a")])
    (.ofList [("foo", .leaf "bar"), ("other", .leaf "a")]) rfl "foo").1 "bar" rfl

/-! ## Claim C5

The key fact is that the whole matcher commutes with ASCII lower-casing of
its input: every branch test of the regex (letter, digit, `-`, `[`, `]`)
is invariant under `Char.toLower`, and the captures of the lower-cased
input are the lower-cased captures. -/

theorem takeExact_lower (p : Char → Bool) (hp : ∀ c, p c.toLower = p c) :
    ∀ (n : Nat) (l : List Char),
      takeExact p n (l.map Char.toLower) =
        (takeExact p n l).map (fun x => (x.1.map Char.toLower, x.2.map Char.toLower)) := by
  intro n
  induction n with
  | zero => intro l; rfl
  | succ n ih =>
    intro l
    cases l with
    | nil => rfl
    | cons c r =>
      rw [List.map_cons, takeExact, takeExact, hp c]
      by_cases hpc : p c = true
      · rw [if_pos hpc, if_pos hpc, ih r]
        cases hr : takeExact p n r with
        | none => rfl
        | some x => rfl
      · rw [if_neg hpc, if_neg hpc]
        rfl

theorem lower_hyphen_iff (c : Char) : (c.toLower = '-') ↔ (c = '-') :=
  toLower_eq_nonletter hyphen_range c

theorem lower_rbracket_iff (c : Char) : (c.toLower = ']') ↔ (c = ']') :=
  toLower_eq_nonletter rbracket_range c

theorem extReps_lower :
    ∀ (n : Nat) (l : List Char),
      extReps n (l.map Char.toLower) =
        (extReps n l).map (fun x => (x.1.map Char.toLower, x.2.map Char.toLower)) := by
  intro n
  induction n with
  | zero => intro l; rfl
  | succ n ih =>
    intro l
    cases l with
    | nil => rfl
    | cons c r =>
      rw [List.map_cons, extReps, extReps]
      by_cases hc : c = '-'
      · rw [if_pos ((lower_hyphen_iff c).mpr hc), if_pos hc,
          takeExact_lower isAsciiLetter isAsciiLetter_toLower]
        cases ht : takeExact isAsciiLetter 3 r with
        | none => rfl
        | some x =>
          obtain ⟨a, r2⟩ := x
          rw [Option.map_some']
          dsimp only
          rw [ih r2]
          cases he : extReps n r2 with
          | none => rfl
          | some y =>
            obtain ⟨y1, y2⟩ := y
            subst hc
            simp [List.map_append, show ('-' : Char).toLower = '-' from by decide]
      · rw [if_neg (fun h2 => hc ((lower_hyphen_iff c).mp h2)), if_neg hc]
        rfl

theorem alt1Branch_lower (k : Nat) (s : List Char) :
    alt1Branch k (s.map Char.toLower) =
      (alt1Branch k s).map (fun x => (x.1.map Char.toLower, x.2.map Char.toLower)) := by
  rw [alt1Branch, alt1Branch, takeExact_lower isAsciiLetter isAsciiLetter_toLower]
  cases hk : takeExact isAsciiLetter k s with
  | none => rfl
  | some x =>
    obtain ⟨a, r⟩ := x
    rw [Option.map_some']
    show List.filterMap _ [3, 2, 1, 0] = _
    rw [List.map_filterMap]
    refine congrArg (fun f => List.filterMap f [3, 2, 1, 0]) (funext fun j => ?_)
    rw [extReps_lower j r]
    cases he : extReps j r with
    | none => rfl
    | some y =>
      obtain ⟨y1, y2⟩ := y
      simp [List.map_append]

theorem alt2Branch_lower (k : Nat) (s : List Char) :
    alt2Branch k (s.map Char.toLower) =
      (alt2Branch k s).map (fun x => (x.1.map Char.toLower, x.2.map Char.toLower)) := by
  have hp : ∀ c : Char,
      (isAsciiLetter c.toLower || decide (c.toLower = '[')) =
        (isAsciiLetter c || decide (c = '[')) := by
    intro c
    rw [isAsciiLetter_toLower, decide_eq_decide.mpr (toLower_eq_nonletter lbracket_range c)]
  rw [alt2Branch, alt2Branch, takeExact_lower _ hp]
  cases ht : takeExact (fun c => isAsciiLetter c || c = '[') k s with
  | none => rfl
  | some x =>
    obtain ⟨a, r⟩ := x
    rw [Option.map_some']
    dsimp only
    cases r with
    | nil => rfl
    | cons c r2 =>
      rw [List.map_cons]
      dsimp only
      by_cases hc : c = ']'
      · rw [if_pos ((lower_rbracket_iff c).mpr hc), if_pos hc]
        subst hc
        simp [List.map_append, show (']' : Char).toLower = ']' from by decide]
      · rw [if_neg (fun h2 => hc ((lower_rbracket_iff c).mp h2)), if_neg hc]
        rfl

theorem langCands_lower (s : List Char) :
    langCands (s.map Char.toLower) =
      (langCands s).map (fun x => (x.1.map Char.toLower, x.2.map Char.toLower)) := by
  simp only [langCands, alt1Cands, alt2Cands, alt1Branch_lower, alt2Branch_lower,
    List.map_append]

theorem scriptOpts_lower (l : List Char) :
    scriptOpts (l.map Char.toLower) =
      (scriptOpts l).map
        (fun x => (x.1.map (List.map Char.toLower), x.2.map Char.toLower)) := by
  cases l with
  | nil => rfl
  | cons c r =>
    rw [List.map_cons]
    simp only [scriptOpts]
    by_cases hc : c = '-'
    · rw [if_pos ((lower_hyphen_iff c).mpr hc), if_pos hc,
        takeExact_lower isAsciiLetter isAsciiLetter_toLower]
      cases ht : takeExact isAsciiLetter 4 r with
      | none => rfl
      | some x =>
        obtain ⟨a, r2⟩ := x
        rfl
    · rw [if_neg (fun h2 => hc ((lower_hyphen_iff c).mp h2)), if_neg hc]
      rfl

theorem regionOpts_lower (l : List Char) :
    regionOpts (l.map Char.toLower) =
      (regionOpts l).map
        (fun x => (x.1.map (List.map Char.toLower), x.2.map Char.toLower)) := by
  cases l with
  | nil => rfl
  | cons c r =>
    rw [List.map_cons]
    simp only [regionOpts]
    by_cases hc : c = '-'
    · rw [if_pos ((lower_hyphen_iff c).mpr hc), if_pos hc,
        takeExact_lower isAsciiLetter isAsciiLetter_toLower,
        takeExact_lower isAsciiDigit isAsciiDigit_toLower]
      cases ht : takeExact isAsciiLetter 2 r with
      | none =>
        cases hd : takeExact isAsciiDigit 3 r with
        | none => rfl
        | some y => obtain ⟨a, r2⟩ := y; rfl
      | some x =>
        obtain ⟨a, r2⟩ := x
        cases hd : takeExact isAsciiDigit 3 r with
        | none => rfl
        | some y => obtain ⟨b, r3⟩ := y; rfl
    · rw [if_neg (fun h2 => hc ((lower_hyphen_iff c).mp h2)), if_neg hc]
      rfl

theorem tailOk_lower (l : List Char) : tailOk (l.map Char.toLower) = tailOk l := by
  cases l with
  | nil => rfl
  | cons c r =>
    rw [List.map_cons, tailOk, tailOk,
      decide_eq_decide.mpr (toLower_eq_nonletter hyphen_range c)]

theorem findSome?_option_map {α β γ : Type} (f : α → Option β) (g : β → γ) :
    ∀ l : List α, (l.findSome? fun a => (f a).map g) = (l.findSome? f).map g := by
  intro l
  induction l with
  | nil => rfl
  | cons a r ih =>
    rw [List.findSome?, List.findSome?]
    cases hf : f a with
    | none => simpa using ih
    | some b => rfl

theorem regionStage_lower (l : List Char) :
    regionStage (l.map Char.toLower) =
      (regionStage l).map (Option.map (List.map Char.toLower)) := by
  rw [regionStage, regionStage, regionOpts_lower, List.findSome?_map, ← findSome?_option_map]
  refine congrArg (fun h => List.findSome? h (regionOpts l)) (funext fun x => ?_)
  dsimp only [Function.comp]
  rw [tailOk_lower]
  by_cases ht : tailOk x.2 = true
  · rw [if_pos ht, if_pos ht]
    rfl
  · rw [if_neg ht, if_neg ht]
    rfl

theorem scriptStage_lower (l : List Char) :
    scriptStage (l.map Char.toLower) =
      (scriptStage l).map
        (fun y => (y.1.map (List.map Char.toLower), y.2.map (List.map Char.toLower))) := by
  rw [scriptStage, scriptStage, scriptOpts_lower, List.findSome?_map, ← findSome?_option_map]
  refine congrArg (fun h => List.findSome? h (scriptOpts l)) (funext fun x => ?_)
  dsimp only [Function.comp]
  rw [regionStage_lower]
  cases hr : regionStage x.2 with
  | none => rfl
  | some rg => rfl

theorem parseCore_lower (s : List Char) :
    parseCore (s.map Char.toLower) =
      (parseCore s).map
        (fun t => (t.1.map Char.toLower, t.2.1.map (List.map Char.toLower),
          t.2.2.map (List.map Char.toLower))) := by
  rw [parseCore, parseCore, langCands_lower, List.findSome?_map, ← findSome?_option_map]
  refine congrArg (fun h => List.findSome? h (langCands s)) (funext fun x => ?_)
  dsimp only [Function.comp]
  rw [scriptStage_lower]
  cases hs : scriptStage x.2 with
  | none => rfl
  | some y => rfl

/-- Parsing is invariant under ASCII lower-casing of the input. -/
theorem parse_lower (s : String) :
    LanguageTag.parse (String.mk (s.data.map Char.toLower)) = LanguageTag.parse s := by
  simp only [LanguageTag.parse]
  rw [parseCore_lower s.data]
  cases hp : parseCore s.data with
  | none => rfl
  | some t =>
    obtain ⟨lang, sc, rg⟩ := t
    rw [Option.map_some']
    dsimp only
    refine congrArg some ?_
    rw [Option.map_map, Option.map_map]
    congr 1
    · exact congrArg String.mk
        (by rw [List.map_map]; exact List.map_congr_left fun a _ => toLower_toLower a)
    · refine congrArg (fun f => Option.map f sc) (funext fun a => ?_)
      dsimp only [Function.comp]
      refine congrArg (fun x => String.mk (titleCase x)) ?_
      rw [List.map_map]
      exact List.map_congr_left fun c _ => toLower_toLower c
    · refine congrArg (fun f => Option.map f rg) (funext fun a => ?_)
      dsimp only [Function.comp]
      refine congrArg String.mk ?_
      rw [List.map_map]
      exact List.map_congr_left fun c _ => toUpper_toLower c

/-- **C5.** Two inputs that differ only in (ASCII) letter case parse to the
same `LanguageTag` — the constructor lower-cases the language, title-cases
the script and upper-cases the region — hence canonicalize to byte-identical
strings of the form `language[-script][-region]`; in particular the
canonical form of `"ZH-hANT-hk"` is `"zh-Hant-HK"`. -/
theorem C5_case_invariance :
    (∀ s t : String, s.data.map Char.toLower = t.data.map Char.toLower →
       LanguageTag.parse s = LanguageTag.parse t) ∧
    (∀ s t : String, s.data.map Char.toLower = t.data.map Char.toLower →
       getCanonicalLocale s = getCanonicalLocale t) ∧
    getCanonicalLocale "ZH-hANT-hk" = some "zh-Hant-HK" := by
  have hparse : ∀ s t : String, s.data.map Char.toLower = t.data.map Char.toLower →
      LanguageTag.parse s = LanguageTag.parse t := by
    intro s t h
    rw [← parse_lower s, ← parse_lower t, h]
  refine ⟨hparse, fun s t h => ?_, rfl⟩
  rw [getCanonicalLocale, getCanonicalLocale, hparse s t h]

theorem C5_witness :
    getCanonicalLocale "ZH-hANT-hk" = getCanonicalLocale "zh-Hant-HK" :=
  C5_case_invariance.2.1 "ZH-hANT-hk" "zh-Hant-HK" (by decide)

end Mnoga
